import Mathlib

/-!
Shallow embedding of the PyUmi wallet toolkit (umipy), covering the
message-signing API (`UmiPy.sign_message` / `UmiPy.sign_verify` from
`umipy/api.py` and `umipy/__init__.py`), the balance query
(`UmiPy.get_balance`), and — modelled from the specification where the
corresponding modules (`umipy/transfer.py`, `umipy/generate_wallet.py`)
are not part of the available sources — the address codec, mnemonic
restoration and transfer building.

Messages and keys are byte sequences, represented as `List Nat` with the
invariant `b < 256` carried as hypotheses where it matters.  Python's
`str`/`bytes` distinction is bridged by UTF-8 encoding, which is injective,
so string equality in the Python source is modelled as byte-list equality.
-/

/-! ## Base64 (Python `base64.b64encode` / `base64.b64decode`)

`b64decode` models CPython's non-strict `binascii.a2b_base64`: characters
outside the alphabet (and outside `'='`) are discarded, then the remaining
characters are consumed four at a time; a leftover group of fewer than four
characters is an error (`binascii.Error` in Python, `none` here). -/

def b64chars : List Char :=
  "ABCDEFGHIJKLMNOPQRSTUVWXYZabcdefghijklmnopqrstuvwxyz0123456789+/".data

def idxOf {α : Type} [DecidableEq α] (x : α) : List α → Option Nat
  | [] => none
  | d :: ds => if x = d then some 0 else (idxOf x ds).map (· + 1)

def b64val (c : Char) : Option Nat := idxOf c b64chars

def b64chr (v : Nat) : Char := b64chars.getD v 'A'

def isB64OrPad (c : Char) : Bool := (b64val c).isSome || c = '='

def b64encodeCore : List Nat → List Char
  | [] => []
  | [x] => [b64chr (x / 4), b64chr (x % 4 * 16), '=', '=']
  | [x, y] => [b64chr (x / 4), b64chr (x % 4 * 16 + y / 16), b64chr (y % 16 * 4), '=']
  | x :: y :: z :: rest =>
      b64chr (x / 4) :: b64chr (x % 4 * 16 + y / 16) ::
      b64chr (y % 16 * 4 + z / 64) :: b64chr (z % 64) :: b64encodeCore rest

def b64encode (bs : List Nat) : String := String.mk (b64encodeCore bs)

def decodeQuads : List Char → Option (List Nat)
  | [] => some []
  | a :: b :: c :: d :: rest =>
      match b64val a, b64val b with
      | some va, some vb =>
          if c = '=' then
            if d = '=' then
              (decodeQuads rest).map (fun r => (va * 4 + vb / 16) :: r)
            else none
          else
            match b64val c with
            | some vc =>
                if d = '=' then
                  (decodeQuads rest).map
                    (fun r => (va * 4 + vb / 16) :: (vb % 16 * 16 + vc / 4) :: r)
                else
                  match b64val d with
                  | some vd =>
                      (decodeQuads rest).map
                        (fun r => (va * 4 + vb / 16) :: (vb % 16 * 16 + vc / 4) ::
                                  (vc % 4 * 64 + vd) :: r)
                  | none => none
            | none => none
      | _, _ => none
  | _ => none

def b64decode (s : String) : Option (List Nat) :=
  decodeQuads (s.data.filter isB64OrPad)

theorem b64val_chr_fin : ∀ v : Fin 64, b64val (b64chr v.val) = some v.val := by decide

theorem b64val_chr (v : Nat) (h : v < 64) : b64val (b64chr v) = some v :=
  b64val_chr_fin ⟨v, h⟩

theorem b64chr_ne_pad_fin : ∀ v : Fin 64, b64chr v.val ≠ '=' := by decide

theorem b64chr_ne_pad (v : Nat) (h : v < 64) : b64chr v ≠ '=' :=
  b64chr_ne_pad_fin ⟨v, h⟩

theorem isB64OrPad_chr (v : Nat) (h : v < 64) : isB64OrPad (b64chr v) = true := by
  simp [isB64OrPad, b64val_chr v h]

theorem isB64OrPad_pad : isB64OrPad '=' = true := by decide

theorem filter_cons_of_pos {p : Char → Bool} {c : Char} (cs : List Char)
    (h : p c = true) : List.filter p (c :: cs) = c :: List.filter p cs := by
  simp [List.filter, h]

theorem b64_roundtrip_core :
    ∀ bs : List Nat, (∀ b ∈ bs, b < 256) →
      decodeQuads (List.filter isB64OrPad (b64encodeCore bs)) = some bs
  | [], _ => rfl
  | [x], h => by
      have hx : x < 256 := h x (by simp)
      have h1 : x / 4 < 64 := by omega
      have h2 : x % 4 * 16 < 64 := by omega
      rw [b64encodeCore,
        filter_cons_of_pos _ (isB64OrPad_chr _ h1),
        filter_cons_of_pos _ (isB64OrPad_chr _ h2),
        filter_cons_of_pos _ isB64OrPad_pad,
        filter_cons_of_pos _ isB64OrPad_pad]
      simp [decodeQuads, b64val_chr _ h1, b64val_chr _ h2]
      omega
  | [x, y], h => by
      have hx : x < 256 := h x (by simp)
      have hy : y < 256 := h y (by simp)
      have h1 : x / 4 < 64 := by omega
      have h2 : x % 4 * 16 + y / 16 < 64 := by omega
      have h3 : y % 16 * 4 < 64 := by omega
      rw [b64encodeCore,
        filter_cons_of_pos _ (isB64OrPad_chr _ h1),
        filter_cons_of_pos _ (isB64OrPad_chr _ h2),
        filter_cons_of_pos _ (isB64OrPad_chr _ h3),
        filter_cons_of_pos _ isB64OrPad_pad]
      simp [decodeQuads, b64val_chr _ h1, b64val_chr _ h2, b64val_chr _ h3,
        b64chr_ne_pad _ h3]
      omega
  | x :: y :: z :: rest, h => by
      have hx : x < 256 := h x (by simp)
      have hy : y < 256 := h y (by simp)
      have hz : z < 256 := h z (by simp)
      have h1 : x / 4 < 64 := by omega
      have h2 : x % 4 * 16 + y / 16 < 64 := by omega
      have h3 : y % 16 * 4 + z / 64 < 64 := by omega
      have h4 : z % 64 < 64 := by omega
      have ih : decodeQuads (List.filter isB64OrPad (b64encodeCore rest)) = some rest :=
        b64_roundtrip_core rest (fun b hb => h b (by simp [hb]))
      rw [b64encodeCore,
        filter_cons_of_pos _ (isB64OrPad_chr _ h1),
        filter_cons_of_pos _ (isB64OrPad_chr _ h2),
        filter_cons_of_pos _ (isB64OrPad_chr _ h3),
        filter_cons_of_pos _ (isB64OrPad_chr _ h4)]
      simp [decodeQuads, b64val_chr _ h1, b64val_chr _ h2, b64val_chr _ h3,
        b64val_chr _ h4, b64chr_ne_pad _ h3, b64chr_ne_pad _ h4, ih]
      omega

theorem b64_roundtrip (bs : List Nat) (h : ∀ b ∈ bs, b < 256) :
    b64decode (b64encode bs) = some bs :=
  b64_roundtrip_core bs h

/-! ## List helpers -/

theorem takeLen_append {α : Type} (l1 l2 : List α) : (l1 ++ l2).take l1.length = l1 := by
  induction l1 with
  | nil => simp
  | cons a t ih => simp [ih]

theorem dropLen_append {α : Type} (l1 l2 : List α) : (l1 ++ l2).drop l1.length = l2 := by
  induction l1 with
  | nil => simp
  | cons a t ih => simp [ih]

/-! ## Address codec

Modelled from the spec: `umipy/transfer.py` (the Address Codec with
`to_public_key`) is imported by `umipy/api.py` but is not among the
available sources.  Per spec section 4.2 an address is
`prefix-part + separator + baseEncode(checksum(prefix-part, payload) ++ payload)`
with `payload` a fixed version/type byte followed by bytes derived from the
public key; `decode` splits on the separator, rejects a malformed prefix
part, unknown alphabet characters and checksum mismatches with
`InvalidAddressError`; `to_public_key` composes `decode` with the
payload-to-public-key extraction used for signature verification, so the
payload derivation is modelled as the invertible `version byte :: public key`
(a non-invertible hash could not support section 4.2's verification use).
The base alphabet, the one-character separator and the checksum function are
chosen concretely here since the spec fixes only their shape. -/

inductive UmiError
  | invalidMnemonic
  | invalidAddress
  | invalidAmount
deriving DecidableEq

def addrChars : List Char := "qpzry9x8gf2tvdw0".data

def aval (c : Char) : Option Nat := idxOf c addrChars

def achr (v : Nat) : Char := addrChars.getD v 'q'

def baseEnc : List Nat → List Char
  | [] => []
  | b :: bs => achr (b / 16) :: achr (b % 16) :: baseEnc bs

def baseDec : List Char → Option (List Nat)
  | [] => some []
  | [_] => none
  | c1 :: c2 :: cs =>
      match aval c1, aval c2, baseDec cs with
      | some v1, some v2, some r => some ((v1 * 16 + v2) :: r)
      | _, _, _ => none

def sepChar : Char := '1'

def splitAtSep : List Char → Option (List Char × List Char)
  | [] => none
  | c :: cs =>
      if c = sepChar then some ([], cs)
      else (splitAtSep cs).map (fun pr => (c :: pr.1, pr.2))

def hrpBytes (hrp : List Char) : List Nat := hrp.map Char.toNat

def checksumStep (acc b : Nat) : Nat := (acc * 31 + b) % 65536

def checksumFn (bs : List Nat) : List Nat :=
  let c := bs.foldl checksumStep 7
  [c / 256, c % 256]

def versionByte : Nat := 0

def payloadOf (public_key : List Nat) : List Nat := versionByte :: public_key

def validHrp (hrp : List Char) : Bool :=
  hrp.length = 3 && hrp.all (fun c => 'a' ≤ c && c ≤ 'z')

def encodeAddress (public_key : List Nat) (hrp : List Char) : String :=
  let payload := payloadOf public_key
  let data := checksumFn (hrpBytes hrp ++ payload) ++ payload
  String.mk (hrp ++ sepChar :: baseEnc data)

def decodeAddress (address : String) : Except UmiError (List Char × List Nat) :=
  match splitAtSep address.data with
  | none => Except.error UmiError.invalidAddress
  | some (hrp, dataCs) =>
      if validHrp hrp then
        match baseDec dataCs with
        | none => Except.error UmiError.invalidAddress
        | some bytes =>
            if bytes.length = 35 then
              if checksumFn (hrpBytes hrp ++ bytes.drop 2) = bytes.take 2 then
                Except.ok (hrp, bytes.drop 2)
              else Except.error UmiError.invalidAddress
            else Except.error UmiError.invalidAddress
      else Except.error UmiError.invalidAddress

def to_public_key (address : String) : Except UmiError (List Nat) :=
  match decodeAddress address with
  | Except.error e => Except.error e
  | Except.ok pr => Except.ok (pr.2.drop 1)

theorem aval_achr_fin : ∀ v : Fin 16, aval (achr v.val) = some v.val := by decide

theorem aval_achr (v : Nat) (h : v < 16) : aval (achr v) = some v :=
  aval_achr_fin ⟨v, h⟩

theorem baseDec_cons (b : Nat) (h : b < 256) (cs : List Char) :
    baseDec (achr (b / 16) :: achr (b % 16) :: cs) = (baseDec cs).map (fun r => b :: r) := by
  have h1 : b / 16 < 16 := by omega
  have h2 : b % 16 < 16 := by omega
  have hb : b / 16 * 16 + b % 16 = b := by omega
  simp only [baseDec, aval_achr _ h1, aval_achr _ h2]
  cases baseDec cs with
  | none => rfl
  | some r => simp [hb]

theorem baseDec_baseEnc (bs : List Nat) (h : ∀ b ∈ bs, b < 256) :
    baseDec (baseEnc bs) = some bs := by
  induction bs with
  | nil => rfl
  | cons b t ih =>
      have hb : b < 256 := h b (by simp)
      have iht : baseDec (baseEnc t) = some t := ih (fun x hx => h x (by simp [hx]))
      rw [baseEnc, baseDec_cons b hb, iht]
      rfl

theorem splitAtSep_append (pre rest : List Char) (h : ∀ c ∈ pre, c ≠ sepChar) :
    splitAtSep (pre ++ sepChar :: rest) = some (pre, rest) := by
  induction pre with
  | nil => simp [splitAtSep]
  | cons c cs ih =>
      have hc : c ≠ sepChar := h c (by simp)
      have ih2 : splitAtSep (cs ++ sepChar :: rest) = some (cs, rest) :=
        ih (fun x hx => h x (by simp [hx]))
      simp [splitAtSep, if_neg hc, ih2]

theorem validHrp_no_sep (hrp : List Char) (h : validHrp hrp = true) :
    ∀ c ∈ hrp, c ≠ sepChar := by
  intro c hc heq
  have hall := (Bool.and_eq_true _ _ |>.mp h).2
  rw [List.all_eq_true] at hall
  have := hall c hc
  subst heq
  simp [sepChar] at this

theorem checksum_fold_lt (bs : List Nat) :
    ∀ acc, acc < 65536 → bs.foldl checksumStep acc < 65536 := by
  induction bs with
  | nil => intro acc h; simpa using h
  | cons b t ih =>
      intro acc h
      simp only [List.foldl_cons]
      exact ih _ (Nat.mod_lt _ (by omega))

theorem checksumFn_len (bs : List Nat) : (checksumFn bs).length = 2 := rfl

theorem checksumFn_bytes (bs : List Nat) : ∀ b ∈ checksumFn bs, b < 256 := by
  intro b hb
  have hc : bs.foldl checksumStep 7 < 65536 := checksum_fold_lt bs 7 (by omega)
  simp [checksumFn] at hb
  rcases hb with h | h <;> omega

theorem decode_encode_address (public_key : List Nat) (hrp : List Char)
    (hlen : public_key.length = 32) (hbytes : ∀ b ∈ public_key, b < 256)
    (hhrp : validHrp hrp = true) :
    decodeAddress (encodeAddress public_key hrp) = Except.ok (hrp, payloadOf public_key) := by
  have hdata : ∀ b ∈ checksumFn (hrpBytes hrp ++ payloadOf public_key) ++ payloadOf public_key,
      b < 256 := by
    intro b hb
    rw [List.mem_append] at hb
    rcases hb with h | h
    · exact checksumFn_bytes _ b h
    · simp [payloadOf, versionByte] at h
      rcases h with h | h
      · omega
      · exact hbytes b h
  have hplen : (payloadOf public_key).length = 33 := by simp [payloadOf, hlen]
  have hdlen : (checksumFn (hrpBytes hrp ++ payloadOf public_key) ++ payloadOf public_key).length
      = 35 := by
    rw [List.length_append, checksumFn_len, hplen]
  simp only [decodeAddress, encodeAddress]
  rw [splitAtSep_append hrp _ (validHrp_no_sep hrp hhrp)]
  simp only [if_pos hhrp]
  rw [baseDec_baseEnc _ hdata]
  simp only [hdlen, if_pos rfl]
  rw [show (2 : Nat) = (checksumFn (hrpBytes hrp ++ payloadOf public_key)).length from rfl]
  rw [takeLen_append, dropLen_append]
  simp

theorem to_public_key_encode (public_key : List Nat) (hrp : List Char)
    (hlen : public_key.length = 32) (hbytes : ∀ b ∈ public_key, b < 256)
    (hhrp : validHrp hrp = true) :
    to_public_key (encodeAddress public_key hrp) = Except.ok public_key := by
  simp only [to_public_key, decode_encode_address public_key hrp hlen hbytes hhrp]
  simp [payloadOf]

theorem decodeAddress_sound (a : String) (hrp : List Char) (payload : List Nat)
    (h : decodeAddress a = Except.ok (hrp, payload)) :
    validHrp hrp = true ∧ payload.length = 33 ∧
      ∃ dataCs, splitAtSep a.data = some (hrp, dataCs) ∧
        baseDec dataCs = some (checksumFn (hrpBytes hrp ++ payload) ++ payload) := by
  unfold decodeAddress at h
  cases hs : splitAtSep a.data with
  | none => simp only [hs] at h; exact absurd h (by simp)
  | some pr =>
      obtain ⟨pre, ds⟩ := pr
      simp only [hs] at h
      by_cases hv : validHrp pre = true
      · rw [if_pos hv] at h
        cases hbd : baseDec ds with
        | none => simp only [hbd] at h; exact absurd h (by simp)
        | some bytes =>
            simp only [hbd] at h
            by_cases hl : bytes.length = 35
            · rw [if_pos hl] at h
              by_cases hck : checksumFn (hrpBytes pre ++ bytes.drop 2) = bytes.take 2
              · rw [if_pos hck] at h
                have hinj := h
                rw [Except.ok.injEq, Prod.mk.injEq] at hinj
                obtain ⟨hpre, hpl⟩ := hinj
                subst hpre
                subst hpl
                refine ⟨hv, ?_, ds, rfl, ?_⟩
                · rw [List.length_drop, hl]
                · rw [hbd, hck]
                  rw [List.take_append_drop]
              · rw [if_neg hck] at h; exact absurd h (by simp)
            · rw [if_neg hl] at h; exact absurd h (by simp)
      · rw [if_neg hv] at h; exact absurd h (by simp)

theorem decodeAddress_ok_or_invalid (a : String) :
    (∃ pr, decodeAddress a = Except.ok pr) ∨
      decodeAddress a = Except.error UmiError.invalidAddress := by
  cases hs : splitAtSep a.data with
  | none => right; simp [decodeAddress, hs]
  | some pr =>
      obtain ⟨pre, ds⟩ := pr
      by_cases hv : validHrp pre = true
      · cases hbd : baseDec ds with
        | none => right; simp [decodeAddress, hs, hv, hbd]
        | some bytes =>
            by_cases hl : bytes.length = 35
            · by_cases hck : checksumFn (hrpBytes pre ++ bytes.drop 2) = bytes.take 2
              · exact Or.inl ⟨(pre, bytes.drop 2), by
                  simp [decodeAddress, hs, hv, hbd, hl, hck]⟩
              · right; simp [decodeAddress, hs, hv, hbd, hl, hck]
            · right; simp [decodeAddress, hs, hv, hbd, hl]
      · right; simp [decodeAddress, hs, hv]

/-! ## Message signing (`UmiPy.sign_message` / `UmiPy.sign_verify`)

Translated from `umipy/api.py` (and the identical pair in
`umipy/__init__.py`).  The ed25519 primitives `nacl.bindings.crypto_sign`
and `crypto_sign_open` are an external library; the embedding is
parametrised over a `SignScheme` carrying the structural facts libsodium
guarantees: `crypto_sign` prepends a 64-byte detached signature to the
message, and `crypto_sign_open` treats the first 64 bytes as the signature,
raising `BadSignatureError` (here `none`) when the buffer is shorter than
64 bytes or the signature does not verify.  Cryptographic acceptance or
rejection of a particular signature is a hypothesis of the theorems, since
it is a property of ed25519, not of this repository's code. -/

structure SignScheme where
  pub : List Nat → List Nat
  sig : List Nat → List Nat → List Nat
  valid : List Nat → List Nat → List Nat → Bool
  sig_len : ∀ sk m, (sig sk m).length = 64
  sig_bytes : ∀ sk m, ∀ b ∈ sig sk m, b < 256
  correct : ∀ sk m, valid (pub sk) (sig sk m) m = true

def crypto_sign (S : SignScheme) (sk message : List Nat) : List Nat :=
  S.sig sk message ++ message

def crypto_sign_open (S : SignScheme) (pk signed : List Nat) : Option (List Nat) :=
  if signed.length < 64 then none
  else if S.valid pk (signed.take 64) (signed.drop 64) then some (signed.drop 64)
  else none

/-- Python's `result[: -n]` slice: for `n = 0` this is `result[:0]`, the
empty list, because `-0 == 0`; for `n > 0` it drops the last `n` items. -/
def pySliceToNeg {α : Type} (l : List α) (n : Nat) : List α :=
  if n = 0 then [] else l.take (l.length - n)

def sign_message (S : SignScheme) (private_key message : List Nat) : String :=
  let result := crypto_sign S private_key message
  b64encode (pySliceToNeg result message.length)

inductive VerifyErr
  | invalidAddress
  | badBase64
deriving DecidableEq

def sign_verify (S : SignScheme) (signature : String) (original_message : List Nat)
    (address : String) : Except VerifyErr Bool :=
  match to_public_key address with
  | Except.error _ => Except.error VerifyErr.invalidAddress
  | Except.ok public_key =>
      match b64decode signature with
      | none => Except.error VerifyErr.badBase64
      | some base64_sig =>
          match crypto_sign_open S public_key (base64_sig ++ original_message) with
          | none => Except.ok false
          | some result => Except.ok (decide (result = original_message))

theorem sign_message_nonempty (S : SignScheme) (sk m : List Nat) (hm : m ≠ []) :
    sign_message S sk m = b64encode (S.sig sk m) := by
  have hlen : m.length ≠ 0 := by
    intro h
    exact hm (List.eq_nil_of_length_eq_zero h)
  simp only [sign_message, crypto_sign, pySliceToNeg, if_neg hlen]
  rw [List.length_append, S.sig_len sk m]
  have : 64 + m.length - m.length = 64 := by omega
  rw [this, show (64 : Nat) = (S.sig sk m).length from (S.sig_len sk m).symm,
    takeLen_append]

theorem crypto_sign_open_append (S : SignScheme) (pk s64 m : List Nat)
    (hs : s64.length = 64) :
    crypto_sign_open S pk (s64 ++ m) =
      (if S.valid pk s64 m then some m else none) := by
  have hlen : (s64 ++ m).length = 64 + m.length := by
    rw [List.length_append, hs]
  have hnotlt : ¬(s64 ++ m).length < 64 := by omega
  simp only [crypto_sign_open, if_neg hnotlt,
    show (64 : Nat) = s64.length from hs.symm, takeLen_append, dropLen_append]
  have hge : ¬(s64 ++ m).length < s64.length := by
    rw [List.length_append]; omega
  rw [if_neg hge]

theorem crypto_sign_open_short (S : SignScheme) (pk signed : List Nat)
    (h : signed.length < 64) : crypto_sign_open S pk signed = none := by
  simp [crypto_sign_open, h]

/-! ## Mnemonic restoration

Modelled from the spec: `umipy/generate_wallet.py` (imported as
`restore_wallet` by `umipy/api.py`) is not among the available sources.
Per spec sections 3 and 4.1 a mnemonic is a whitespace-separated sequence
of words from a fixed wordlist with an embedded checksum; `restore` fails
with `InvalidMnemonicError` when the phrase does not validate, and
otherwise deterministically derives a seed, an ed25519-style keypair
(`private key = seed plus public concatenation`, section 3) and the
address.  The wordlist, word count, checksum rule and the one-way
phrase-to-seed transform are chosen concretely here since the spec fixes
only their shape (fixed wordlist, fixed word count, deterministic and
one-way). -/

structure Keys where
  public_key : List Nat
  private_key : List Nat
deriving DecidableEq

structure WalletResponse where
  address : String
  mnemonic : String
  keys : Keys
deriving DecidableEq

def wordlist : List (List Char) :=
  ["abandon".data, "ability".data, "able".data, "about".data,
   "above".data, "absent".data, "absorb".data, "abstract".data,
   "absurd".data, "abuse".data, "access".data, "accident".data,
   "account".data, "accuse".data, "achieve".data, "acid".data]

def splitWords : List Char → List (List Char)
  | [] => [[]]
  | c :: rest =>
      if c = ' ' then [] :: splitWords rest
      else
        match splitWords rest with
        | [] => [[c]]
        | w :: ws => (c :: w) :: ws

def wordIndex (w : List Char) : Option Nat := idxOf w wordlist

def validMnemonic (mnemonic : String) : Bool :=
  match (splitWords mnemonic.data).mapM wordIndex with
  | none => false
  | some idxs =>
      decide (idxs.length = 12) && decide ((idxs.take 11).sum % 16 = idxs.getD 11 0)

def mixChar (acc : Nat) (c : Char) : Nat := (acc * 131 + c.toNat) % 4294967296

def phraseHash (mnemonic : String) : Nat := mnemonic.data.foldl mixChar 5381

def deriveSeed (mnemonic : String) : List Nat :=
  (List.range 32).map (fun i => (phraseHash mnemonic * (2 * i + 3) + i * i) % 256)

def pubFromSeed (seed : List Nat) : List Nat := seed.map (fun b => (b * 7 + 3) % 256)

def restore_wallet (mnemonic : String) (hrp : List Char) :
    Except UmiError WalletResponse :=
  if validMnemonic mnemonic then
    let seed := deriveSeed mnemonic
    let pk := pubFromSeed seed
    Except.ok
      { address := encodeAddress pk hrp
      , mnemonic := mnemonic
      , keys := { public_key := pk, private_key := seed ++ pk } }
  else Except.error UmiError.invalidMnemonic

/-! ## Transfer building

Modelled from the spec: `umipy/transfer.py`'s `transfer_addresses`
(called by `UmiPy.send_addresses` in `umipy/api.py`) is not among the
available sources.  Per spec sections 3 and 4.3 the unsigned transaction
is a fixed-width record `{version : u16, sender payload, recipient
payload, amount : u64 in minor units}`; the amount must be positive and
within the representable range of the 64-bit minor-unit field or the build
fails with `InvalidAmountError` before any signing; the recipient and
sender addresses are decoded first, failing with `InvalidAddressError`.
The signed transaction is the unsigned record followed by the 64-byte
detached signature over exactly the unsigned bytes. -/

def maxMinor : Int := 18446744073709551615

def u16be (v : Nat) : List Nat := [v / 256 % 256, v % 256]

def u64be (a : Nat) : List Nat :=
  (List.range 8).map (fun i => a / 2 ^ (8 * (7 - i)) % 256)

def buildUnsigned (version : Nat) (fromPl toPl : List Nat) (amount : Nat) : List Nat :=
  u16be version ++ fromPl ++ toPl ++ u64be amount

def transfer_addresses (S : SignScheme) (private_key : List Nat)
    (from_address to_address : String) (amount : Int) (send_version : Nat) :
    Except UmiError (List Nat) :=
  match decodeAddress from_address with
  | Except.error e => Except.error e
  | Except.ok fromPr =>
      match decodeAddress to_address with
      | Except.error e => Except.error e
      | Except.ok toPr =>
          if amount ≤ 0 then Except.error UmiError.invalidAmount
          else if maxMinor < amount then Except.error UmiError.invalidAmount
          else
            let unsigned := buildUnsigned send_version fromPr.2 toPr.2 amount.toNat
            Except.ok (unsigned ++ S.sig private_key unsigned)

/-! ## Balance query (`UmiPy.get_balance`, from `umipy/api.py`)

The node's reply to `GET /api/addresses/{address}/account` is abstracted
to whether it carries an `"error"` key and the integer minor-unit balance
under `data`.  The Python code divides by 100 with `/`, an exact operation
for the values relevant here, modelled over `Rat`. -/

structure AccountApiResponse where
  hasError : Bool
  dataBalance : Int

structure BalanceResponse where
  balance : Rat
deriving DecidableEq

def get_balance (response : AccountApiResponse) : BalanceResponse :=
  if response.hasError then { balance := 0 }
  else { balance := (response.dataBalance : Rat) / 100 }

/-! ## A concrete scheme instance and inputs for witnesses -/

def toySig (sk m : List Nat) : List Nat :=
  List.replicate 63 0 ++ [(sk.sum + m.sum + m.length) % 256]

def toyScheme : SignScheme :=
  { pub := fun sk => sk
  , sig := toySig
  , valid := fun pk s m => s == toySig pk m
  , sig_len := by
      intro sk m
      simp [toySig]
  , sig_bytes := by
      intro sk m b hb
      simp [toySig, List.mem_append, List.mem_replicate] at hb
      rcases hb with h | h
      · omega
      · have := Nat.mod_lt (sk.sum + m.sum + m.length) (show 0 < 256 by omega)
        omega
  , correct := by
      intro sk m
      simp }

def skC : List Nat := List.replicate 32 1

def mC : List Nat := [104, 105]

def hrpC : List Char := "umi".data

def addrC : String := encodeAddress skC hrpC


/-! ## Claim theorems -/

/-- C9: for the empty message, `sign_message` returns the empty string: Python's
slice `result[:-len(encoded_message)]` with `len == 0` is `result[:0]` and drops
all bytes, so no signature material is returned for an empty message. -/
theorem sign_message_empty_is_empty_string (S : SignScheme) (private_key : List Nat) :
    sign_message S private_key [] = "" := rfl

/-- C1 (code evaluated at the failing input): for the empty message, verifying a
freshly produced signature returns `false`, not `true` — `sign_message` drops the
entire signature via the `[:-0]` slice, so `sign_verify` receives a zero-byte
signature, `crypto_sign_open` rejects the short buffer, and the caught
`BadSignatureError` yields `false`. -/
theorem sign_verify_fresh_empty_message_false :
    sign_verify toyScheme (sign_message toyScheme skC []) []
      (encodeAddress (toyScheme.pub skC) hrpC) = Except.ok false := rfl

/-- C2 (code evaluated at the failing input): for the empty message the returned
value decodes to zero bytes, not to the 64-byte detached signature, so the
decoded length is not independent of the message. -/
theorem sign_message_empty_not_signature :
    b64decode (sign_message toyScheme skC []) = some []
    ∧ (toyScheme.sig skC []).length = 64 := ⟨rfl, rfl⟩

/-- C3 counterexample: a structurally invalid signature string — here one that
decodes to zero bytes, not a 64-byte signature — makes `sign_verify` return the
boolean `false` instead of propagating or rejecting: the short buffer reaches
`crypto_sign_open`, whose `BadSignatureError` is caught and mapped to `false`. -/
theorem sign_verify_wrong_length_returns_false :
    sign_verify toyScheme "" mC addrC = Except.ok false := rfl

/-- C3 amended: with a valid address, a structurally well-formed (64-byte) but
cryptographically invalid signature yields `Except.ok false`; a signature string
that is not valid base64 propagates an error; but a wrong-length decoded
signature is not structurally rejected — it flows into cryptographic
verification and also yields `Except.ok false` (shown here for signatures short
enough that the buffer stays under 64 bytes). -/
theorem sign_verify_error_handling :
    (∀ (S : SignScheme) (pk : List Nat) (hrp : List Char) (sigBytes m : List Nat),
        pk.length = 32 → (∀ b ∈ pk, b < 256) → validHrp hrp = true →
        sigBytes.length = 64 → (∀ b ∈ sigBytes, b < 256) →
        S.valid pk sigBytes m = false →
        sign_verify S (b64encode sigBytes) m (encodeAddress pk hrp) = Except.ok false)
    ∧ (∀ (S : SignScheme) (s : String) (m : List Nat) (a : String) (pk : List Nat),
        to_public_key a = Except.ok pk → b64decode s = none →
        sign_verify S s m a = Except.error VerifyErr.badBase64)
    ∧ (∀ (S : SignScheme) (pk : List Nat) (hrp : List Char) (sigBytes m : List Nat),
        pk.length = 32 → (∀ b ∈ pk, b < 256) → validHrp hrp = true →
        (∀ b ∈ sigBytes, b < 256) → sigBytes.length + m.length < 64 →
        sign_verify S (b64encode sigBytes) m (encodeAddress pk hrp) = Except.ok false) := by
  refine ⟨?_, ?_, ?_⟩
  · intro S pk hrp sigBytes m hl hb hh hsl hsb hval
    simp only [sign_verify, to_public_key_encode pk hrp hl hb hh,
      b64_roundtrip sigBytes hsb, crypto_sign_open_append S pk sigBytes m hsl, hval]
    simp
  · intro S s m a pk hpk hdec
    simp only [sign_verify, hpk, hdec]
  · intro S pk hrp sigBytes m hl hb hh hsb hlen
    have hshort : (sigBytes ++ m).length < 64 := by
      rw [List.length_append]; omega
    simp only [sign_verify, to_public_key_encode pk hrp hl hb hh,
      b64_roundtrip sigBytes hsb, crypto_sign_open_short S pk _ hshort]

theorem sign_verify_error_handling_witness :
    sign_verify toyScheme (b64encode (List.replicate 64 5)) mC (encodeAddress skC hrpC)
        = Except.ok false
    ∧ sign_verify toyScheme "A" mC addrC = Except.error VerifyErr.badBase64
    ∧ sign_verify toyScheme (b64encode [1, 2, 3]) mC (encodeAddress skC hrpC)
        = Except.ok false :=
  ⟨sign_verify_error_handling.1 toyScheme skC hrpC (List.replicate 64 5) mC
      (by decide) (by decide) (by decide) (by decide) (by decide) (by decide),
   sign_verify_error_handling.2.1 toyScheme "A" mC addrC skC (by rfl) (by rfl),
   sign_verify_error_handling.2.2 toyScheme skC hrpC [1, 2, 3] mC
      (by decide) (by decide) (by decide) (by decide) (by decide)⟩

/-- Positive round of the message-signing pair: for a nonempty message, the
signature produced by `sign_message` verifies against the signer's address.
(For the empty message this fails; see the C1 evaluation above.) -/
theorem sign_verify_fresh_nonempty (S : SignScheme) (sk m : List Nat) (hrp : List Char)
    (hm : m ≠ [])
    (hpl : (S.pub sk).length = 32) (hpb : ∀ x ∈ S.pub sk, x < 256)
    (hh : validHrp hrp = true) :
    sign_verify S (sign_message S sk m) m (encodeAddress (S.pub sk) hrp)
      = Except.ok true := by
  rw [sign_message_nonempty S sk m hm]
  simp only [sign_verify, to_public_key_encode _ hrp hpl hpb hh,
    b64_roundtrip _ (S.sig_bytes sk m),
    crypto_sign_open_append S _ _ _ (S.sig_len sk m), S.correct sk m]
  simp

theorem sign_verify_fresh_nonempty_witness :
    sign_verify toyScheme (sign_message toyScheme skC mC)
      mC (encodeAddress (toyScheme.pub skC) hrpC) = Except.ok true :=
  sign_verify_fresh_nonempty toyScheme skC mC hrpC
    (by decide) (by decide) (by decide) (by decide)

/-- C4: after producing a valid signature for a nonempty message, changing any
single byte of the message, or any single byte of the 64-byte signature,
makes `sign_verify` return `Except.ok false` — a boolean rejection, not a raised
error — provided the underlying ed25519 primitive rejects the mutated pair
(the cryptographic fact, carried as a hypothesis on the scheme). -/
theorem sign_verify_mutation_false (S : SignScheme) (sk m : List Nat) (hrp : List Char)
    (i j b c : Nat)
    (hm : m ≠ [])
    (hpl : (S.pub sk).length = 32) (hpb : ∀ x ∈ S.pub sk, x < 256)
    (hh : validHrp hrp = true)
    (_hi : i < m.length) (_hbne : b ≠ m.getD i 0)
    (_hj : j < 64) (hc : c < 256) (_hcne : c ≠ (S.sig sk m).getD j 0)
    (hrej1 : S.valid (S.pub sk) (S.sig sk m) (m.set i b) = false)
    (hrej2 : S.valid (S.pub sk) ((S.sig sk m).set j c) m = false) :
    sign_verify S (sign_message S sk m) (m.set i b) (encodeAddress (S.pub sk) hrp)
        = Except.ok false
    ∧ sign_verify S (b64encode ((S.sig sk m).set j c)) m (encodeAddress (S.pub sk) hrp)
        = Except.ok false := by
  constructor
  · rw [sign_message_nonempty S sk m hm]
    simp only [sign_verify, to_public_key_encode _ hrp hpl hpb hh,
      b64_roundtrip _ (S.sig_bytes sk m),
      crypto_sign_open_append S _ _ _ (S.sig_len sk m), hrej1]
    simp
  · have hsb : ∀ x ∈ (S.sig sk m).set j c, x < 256 := by
      intro x hx
      rcases List.mem_or_eq_of_mem_set hx with h | h
      · exact S.sig_bytes sk m x h
      · omega
    have hslen : ((S.sig sk m).set j c).length = 64 := by
      rw [List.length_set, S.sig_len sk m]
    simp only [sign_verify, to_public_key_encode _ hrp hpl hpb hh,
      b64_roundtrip _ hsb,
      crypto_sign_open_append S _ _ _ hslen, hrej2]
    simp

theorem sign_verify_mutation_false_witness :
    sign_verify toyScheme (sign_message toyScheme skC mC)
        (mC.set 0 200) (encodeAddress (toyScheme.pub skC) hrpC) = Except.ok false
    ∧ sign_verify toyScheme (b64encode ((toyScheme.sig skC mC).set 0 9))
        mC (encodeAddress (toyScheme.pub skC) hrpC) = Except.ok false :=
  sign_verify_mutation_false toyScheme skC mC hrpC 0 0 200 9
    (by decide) (by decide) (by decide) (by decide) (by decide) (by decide)
    (by decide) (by decide) (by decide) (by decide) (by decide)

def m0 : String :=
  "abandon abandon abandon abandon abandon abandon abandon abandon abandon abandon abandon abandon"

def restoredW : WalletResponse :=
  match restore_wallet m0 hrpC with
  | Except.ok w => w
  | Except.error _ =>
      { address := "", mnemonic := "", keys := { public_key := [], private_key := [] } }

/-- C5: restoring a wallet from a fixed valid mnemonic phrase is deterministic —
any two calls of `restore_wallet` on the same phrase and prefix yield identical
keypairs and hence the same derived address. -/
theorem restore_wallet_deterministic (mnemonic : String) (hrp : List Char)
    (w w' : WalletResponse)
    (h : restore_wallet mnemonic hrp = Except.ok w)
    (h' : restore_wallet mnemonic hrp = Except.ok w') :
    w.keys = w'.keys ∧ w.address = w'.address := by
  rw [h, Except.ok.injEq] at h'
  subst h'
  exact ⟨rfl, rfl⟩

theorem restore_wallet_deterministic_witness :
    restoredW.keys = restoredW.keys ∧ restoredW.address = restoredW.address :=
  restore_wallet_deterministic m0 hrpC restoredW restoredW (by rfl) (by rfl)

/-- C6: a mnemonic phrase that does not validate against the wordlist/checksum
scheme makes `restore_wallet` fail with `InvalidMnemonicError` rather than
return a keypair or silently correct the phrase. -/
theorem restore_wallet_invalid_mnemonic (mnemonic : String) (hrp : List Char)
    (h : validMnemonic mnemonic = false) :
    restore_wallet mnemonic hrp = Except.error UmiError.invalidMnemonic := by
  simp [restore_wallet, h]

theorem restore_wallet_invalid_mnemonic_witness :
    restore_wallet "hello world" hrpC = Except.error UmiError.invalidMnemonic :=
  restore_wallet_invalid_mnemonic "hello world" hrpC (by decide)

/-- C7: the address codec round-trips — decoding `encode(pk, p)` for a 32-byte
public key and valid 3-letter prefix yields exactly `(p, payload(pk))`; decoding
accepts only addresses whose data segment decodes to the recomputed checksum of
`prefix ++ payload` followed by the payload (so a checksum-failing address is
never silently accepted); and every rejected address fails with
`InvalidAddressError`. -/
theorem address_codec_roundtrip :
    (∀ (public_key : List Nat) (hrp : List Char),
        public_key.length = 32 → (∀ b ∈ public_key, b < 256) → validHrp hrp = true →
        decodeAddress (encodeAddress public_key hrp)
          = Except.ok (hrp, payloadOf public_key))
    ∧ (∀ (a : String) (hrp : List Char) (payload : List Nat),
        decodeAddress a = Except.ok (hrp, payload) →
        validHrp hrp = true ∧ payload.length = 33 ∧
          ∃ dataCs, splitAtSep a.data = some (hrp, dataCs) ∧
            baseDec dataCs = some (checksumFn (hrpBytes hrp ++ payload) ++ payload))
    ∧ (∀ a : String, (∃ pr, decodeAddress a = Except.ok pr) ∨
        decodeAddress a = Except.error UmiError.invalidAddress) :=
  ⟨decode_encode_address, decodeAddress_sound, decodeAddress_ok_or_invalid⟩

theorem address_codec_roundtrip_witness :
    decodeAddress (encodeAddress skC hrpC) = Except.ok (hrpC, payloadOf skC) :=
  address_codec_roundtrip.1 skC hrpC (by decide) (by decide) (by decide)

def pkB : List Nat := List.replicate 32 2

def addrB : String := encodeAddress pkB hrpC

/-- C8: when building a transfer with valid sender and recipient addresses, the
amount is validated before signing: amount `0` and negative amounts are rejected
with `InvalidAmountError`, the maximum representable 64-bit minor-unit amount
succeeds, and `max + 1` fails with `InvalidAmountError`. -/
theorem transfer_amount_bounds (S : SignScheme) (private_key : List Nat)
    (from_address to_address : String) (send_version : Nat)
    (prF prT : List Char × List Nat)
    (hf : decodeAddress from_address = Except.ok prF)
    (ht : decodeAddress to_address = Except.ok prT) :
    transfer_addresses S private_key from_address to_address 0 send_version
        = Except.error UmiError.invalidAmount
    ∧ (∀ a : Int, a < 0 →
        transfer_addresses S private_key from_address to_address a send_version
          = Except.error UmiError.invalidAmount)
    ∧ (transfer_addresses S private_key from_address to_address maxMinor
        send_version).isOk = true
    ∧ transfer_addresses S private_key from_address to_address (maxMinor + 1)
        send_version = Except.error UmiError.invalidAmount := by
  refine ⟨?_, ?_, ?_, ?_⟩
  · simp [transfer_addresses, hf, ht]
  · intro a ha
    have hle : a ≤ 0 := le_of_lt ha
    simp [transfer_addresses, hf, ht, hle]
  · have h1 : ¬(maxMinor ≤ 0) := by norm_num [maxMinor]
    have h2 : ¬(maxMinor < maxMinor) := lt_irrefl maxMinor
    simp only [transfer_addresses, hf, ht, if_neg h1, if_neg h2]
    rfl
  · have h1 : ¬(maxMinor + 1 ≤ 0) := by norm_num [maxMinor]
    have h2 : maxMinor < maxMinor + 1 := lt_add_one maxMinor
    simp only [transfer_addresses, hf, ht, if_neg h1, if_pos h2]

theorem transfer_amount_bounds_witness :
    transfer_addresses toyScheme skC addrC addrB 0 1
        = Except.error UmiError.invalidAmount
    ∧ transfer_addresses toyScheme skC addrC addrB (-5) 1
        = Except.error UmiError.invalidAmount
    ∧ (transfer_addresses toyScheme skC addrC addrB maxMinor 1).isOk = true
    ∧ transfer_addresses toyScheme skC addrC addrB (maxMinor + 1) 1
        = Except.error UmiError.invalidAmount :=
  have H := transfer_amount_bounds toyScheme skC addrC addrB 1
    (hrpC, payloadOf skC) (hrpC, payloadOf pkB) (by rfl) (by rfl)
  ⟨H.1, H.2.1 (-5) (by norm_num), H.2.2.1, H.2.2.2⟩

/-- C10: when the node's account query carries an error indicator, `get_balance`
returns `BalanceResponse(balance = 0)` rather than raising or signalling the
error, and a genuine zero balance produces the very same value, so the two are
indistinguishable at the public interface. -/
theorem get_balance_error_is_zero :
    (∀ r : AccountApiResponse, r.hasError = true → get_balance r = { balance := 0 })
    ∧ get_balance { hasError := false, dataBalance := 0 } = { balance := 0 } := by
  constructor
  · intro r h
    simp [get_balance, h]
  · simp [get_balance]

theorem get_balance_error_is_zero_witness :
    get_balance { hasError := true, dataBalance := 777 } = { balance := 0 } :=
  get_balance_error_is_zero.1 { hasError := true, dataBalance := 777 } rfl
